import Mathlib

/-!
Verification of the BunDB indexed record engine (`src/index.ts`, class `Database`).

The embedding models JavaScript runtime values shallowly:
* numbers are modelled as integers (records originate from JSON and every claim
  under consideration is float-free; fractional/hex/`Infinity` numeric strings
  and NaN literals are outside the model),
* object and array identity (JavaScript reference equality, used by `===` and
  as `Map`/`Set` key equality) is modelled by an explicit `ref : Nat` tag,
* `undefined` is a first-class value, since absent record fields read as
  `undefined` and the engine's index maintenance branches on it,
* fallible evaluation (the `throw` in `matchesQuery`) is `Except String`.
-/

namespace BunDB

/-- A JavaScript runtime value as used by the engine: JSON values plus
`undefined`, with an identity tag on arrays and objects. -/
inductive Value where
  | null : Value
  | undef : Value
  | bool (b : Bool) : Value
  | num (n : Int) : Value
  | str (s : String) : Value
  | arr (ref : Nat) (elems : List Value) : Value
  | obj (ref : Nat) (fields : List (String × Value)) : Value

/-- JavaScript strict equality `===`: primitives by value, arrays and objects
by reference identity. (`SameValueZero`, the key equality of `Map`/`Set` and
`Array.prototype.includes`, coincides with `===` on this model because the
model has no NaN and no negative zero.) -/
def jsEq : Value → Value → Bool
  | Value.null, Value.null => true
  | Value.undef, Value.undef => true
  | Value.bool b, Value.bool c => b == c
  | Value.num n, Value.num m => n == m
  | Value.str s, Value.str t => s == t
  | Value.arr r _, Value.arr r' _ => r == r'
  | Value.obj r _, Value.obj r' _ => r == r'
  | _, _ => false

/-- The test `typeof v === "object"`: true exactly for `null`, arrays and
objects. -/
def isObjectTyped : Value → Bool
  | Value.null => true
  | Value.arr _ _ => true
  | Value.obj _ _ => true
  | _ => false

/-- Join strings with commas (`Array.prototype.join(",")`). -/
def joinComma : List String → String
  | [] => ""
  | [s] => s
  | s :: rest => s ++ "," ++ joinComma rest

/-- JavaScript `ToString` on the values of the model. Array elements that are
`null` or `undefined` render as the empty string inside `join(",")`. -/
def jsToString : Value → String
  | Value.null => "null"
  | Value.undef => "undefined"
  | Value.bool true => "true"
  | Value.bool false => "false"
  | Value.num n => toString n
  | Value.str s => s
  | Value.arr _ xs =>
      joinComma
        (xs.attach.map fun e =>
          match e with
          | ⟨Value.null, _⟩ => ""
          | ⟨Value.undef, _⟩ => ""
          | ⟨v, _⟩ => jsToString v)
  | Value.obj _ _ => "[object Object]"
decreasing_by
  simp_wf
  rename_i hmem
  have := List.sizeOf_lt_of_mem hmem
  omega

/-- The white-space characters JavaScript trims in `Number(string)`. -/
def jsIsSpace (c : Char) : Bool :=
  c == ' ' || c == '\t' || c == '\n' || c == '\r'

/-- A decimal digit. -/
def isDigitChar (c : Char) : Bool :=
  48 ≤ c.toNat && c.toNat ≤ 57

/-- Value of a nonempty all-digit character run, else `none`. -/
def parseDigits : List Char → Option Nat
  | [] => none
  | cs =>
    if cs.all isDigitChar then
      some (cs.foldl (fun acc c => acc * 10 + (c.toNat - 48)) 0)
    else none

/-- JavaScript `Number(string)` restricted to decimal integers: surrounding
whitespace is trimmed, the empty string is `0`, an optional sign followed by
decimal digits parses numerically, anything else (floats, hex, `Infinity`,
garbage) is NaN (`none`); fractional and non-decimal numeric strings are
outside the model. -/
def strToNum (s : String) : Option Int :=
  let t := ((s.data.dropWhile jsIsSpace).reverse.dropWhile jsIsSpace).reverse
  match t with
  | [] => some 0
  | '-' :: ds => (parseDigits ds).map fun n => -(n : Int)
  | '+' :: ds => (parseDigits ds).map fun n => (n : Int)
  | ds => (parseDigits ds).map fun n => (n : Int)

/-- JavaScript `ToNumber`; `none` is NaN. -/
def toNumber : Value → Option Int
  | Value.null => some 0
  | Value.undef => none
  | Value.bool true => some 1
  | Value.bool false => some 0
  | Value.num n => some n
  | Value.str s => strToNum s
  | v => strToNum (jsToString v)

/-- `ToPrimitive` with number hint on plain arrays/objects: both fall back to
their `toString`. Primitives are already primitive. -/
def toPrim : Value → Value
  | Value.arr r xs => Value.str (jsToString (Value.arr r xs))
  | Value.obj r fs => Value.str (jsToString (Value.obj r fs))
  | v => v

/-- Lexicographic comparison of character lists (JavaScript string `<`). -/
def strCmpList : List Char → List Char → Ordering
  | [], [] => Ordering.eq
  | [], _ :: _ => Ordering.lt
  | _ :: _, [] => Ordering.gt
  | a :: as, b :: bs =>
    if a.toNat < b.toNat then Ordering.lt
    else if b.toNat < a.toNat then Ordering.gt
    else strCmpList as bs

def strCmp (x y : String) : Ordering := strCmpList x.data y.data

def intCmp (m n : Int) : Ordering :=
  if m < n then Ordering.lt else if m = n then Ordering.eq else Ordering.gt

/-- The shared core of the JavaScript relational operators `<`, `<=`, `>`,
`>=`: after `ToPrimitive`, two strings compare lexicographically, otherwise
both sides go through `ToNumber` and NaN (`none`) makes every comparison
false. -/
def jsCompare (a b : Value) : Option Ordering :=
  match toPrim a, toPrim b with
  | Value.str x, Value.str y => some (strCmp x y)
  | a', b' =>
    match toNumber a', toNumber b' with
    | some m, some n => some (intCmp m n)
    | _, _ => none

def jsLt (a b : Value) : Bool := jsCompare a b == some Ordering.lt
def jsLte (a b : Value) : Bool := jsCompare a b == some Ordering.lt || jsCompare a b == some Ordering.eq
def jsGt (a b : Value) : Bool := jsCompare a b == some Ordering.gt
def jsGte (a b : Value) : Bool := jsCompare a b == some Ordering.gt || jsCompare a b == some Ordering.eq

/-- Substring occurrence over character lists. -/
def subOccurs (sub : List Char) : List Char → Bool
  | [] => sub.isEmpty
  | c :: rest => sub.isPrefixOf (c :: rest) || subOccurs sub rest

/-- `String.prototype.includes` (substring test; the engine's `$contains`). -/
def strIncludes (s sub : String) : Bool :=
  subOccurs sub.data s.data

/-- `String.prototype.startsWith`. -/
def strStartsWith (s p : String) : Bool :=
  p.data.isPrefixOf s.data

/-- `String.prototype.endsWith`. -/
def strEndsWith (s p : String) : Bool :=
  p.data.reverse.isPrefixOf s.data.reverse

/-! ## Records and queries

A JavaScript plain object is an ordered association list from field names to
values; reading an absent field yields `undefined`. Queries are plain objects
too: an entry whose value is a non-object is a literal equality constraint,
an entry whose value is an object (or array) has its own entries read as
(operator, operand) pairs by `Object.entries`. -/

/-- A stored record / plain object: field names in insertion order. -/
abbrev Rec := List (String × Value)

/-- A query: field name to literal or operator-object constraint. -/
abbrev Query := List (String × Value)

/-- First binding of a key, if any (JavaScript objects hold each key once). -/
def lookupField (r : Rec) (k : String) : Option Value :=
  (r.find? fun e => e.1 == k).map fun e => e.2

/-- `obj[key]`: the bound value, or `undefined` when the key is absent. -/
def getField (r : Rec) (k : String) : Value :=
  (lookupField r k).getD Value.undef

/-- Shallow merge `{ ...item, ...changes }`: keys of `item` keep their
position, values overridden by `changes` where present; keys only in
`changes` are appended in their order. -/
def mergeRecords (item changes : Rec) : Rec :=
  (item.map fun e => (e.1, (lookupField changes e.1).getD e.2)) ++
    changes.filter fun e => (lookupField item e.1).isNone

/-- The operator symbols recognized by the evaluator's `switch`. -/
def recognizedOp (op : String) : Bool :=
  op == "$eq" || op == "$ne" || op == "$gt" || op == "$gte" || op == "$lt" ||
  op == "$lte" || op == "$in" || op == "$nin" || op == "$contains" ||
  op == "$startsWith" || op == "$endsWith"

/-- One arm of the `switch (operator)` in `matchesQuery`. `$in`/`$nin` call
`operand.includes(itemValue)`, which exists on arrays and strings and is a
`TypeError` on every other operand; an unrecognized symbol hits the
`default: throw` arm. -/
def evalOp (itemValue : Value) (op : String) (v : Value) : Except String Bool :=
  if op == "$eq" then Except.ok (jsEq itemValue v)
  else if op == "$ne" then Except.ok (!jsEq itemValue v)
  else if op == "$gt" then Except.ok (jsGt itemValue v)
  else if op == "$gte" then Except.ok (jsGte itemValue v)
  else if op == "$lt" then Except.ok (jsLt itemValue v)
  else if op == "$lte" then Except.ok (jsLte itemValue v)
  else if op == "$in" then
    match v with
    | Value.arr _ xs => Except.ok (xs.any fun x => jsEq x itemValue)
    | Value.str s => Except.ok (strIncludes s (jsToString itemValue))
    | _ => Except.error "TypeError: value.includes is not a function"
  else if op == "$nin" then
    match v with
    | Value.arr _ xs => Except.ok (!xs.any fun x => jsEq x itemValue)
    | Value.str s => Except.ok (!strIncludes s (jsToString itemValue))
    | _ => Except.error "TypeError: value.includes is not a function"
  else if op == "$contains" then
    Except.ok (match itemValue with
      | Value.str s => strIncludes s (jsToString v)
      | _ => false)
  else if op == "$startsWith" then
    Except.ok (match itemValue with
      | Value.str s => strStartsWith s (jsToString v)
      | _ => false)
  else if op == "$endsWith" then
    Except.ok (match itemValue with
      | Value.str s => strEndsWith s (jsToString v)
      | _ => false)
  else Except.error ("Unsupported operator: " ++ op)

/-- `Object.entries(condition).every(([operator, value]) => ...)` with
short-circuiting: the first false wins, the first throw aborts. -/
def evalCondEntries (itemValue : Value) : List (String × Value) → Except String Bool
  | [] => Except.ok true
  | (op, v) :: rest => do
    let b ← evalOp itemValue op v
    if b then evalCondEntries itemValue rest else Except.ok false

/-- `Object.entries` of an array yields its index strings as keys. -/
def arrEntries (xs : List Value) : List (String × Value) :=
  xs.enum.map fun e => (toString e.1, e.2)

/-- One field constraint of a query. `typeof condition !== "object" ||
condition === null` selects the literal (`===`) branch; otherwise the
condition's own entries are evaluated as operators. -/
def evalConstraint (item : Rec) (key : String) (cond : Value) : Except String Bool :=
  match cond with
  | Value.arr _ xs => evalCondEntries (getField item key) (arrEntries xs)
  | Value.obj _ fs => evalCondEntries (getField item key) fs
  | c => Except.ok (jsEq (getField item key) c)

/-- `matchesQuery`: every field constraint must hold (short-circuiting
`Array.prototype.every`, so a thrown `Unsupported operator` aborts and an
early false suppresses later constraints). -/
def matchesQuery (item : Rec) : Query → Except String Bool
  | [] => Except.ok true
  | (key, cond) :: rest => do
    let b ← evalConstraint item key cond
    if b then matchesQuery item rest else Except.ok false

/-- Convenience view: did the record match without throwing? -/
def matchesB (item : Rec) (q : Query) : Bool :=
  match matchesQuery item q with
  | Except.ok b => b
  | Except.error _ => false

/-! ## Maps, sets and the database state

`indexes : Map<string, Map<any, Set<number>>>` is modelled by insertion-order
association lists. The outer map is keyed by field name (string equality),
the inner maps by field value under `SameValueZero` (here `jsEq`). A `Set` of
positions is a duplicate-free list in insertion order; `Set.delete` keeps the
order of the survivors and a re-`add` appends at the end, which the list
operations below reproduce. -/

/-- An index for one field: value bucket list. -/
abbrev ValueMap := List (Value × List Nat)

/-- All indexes: field name to its value map. -/
abbrev Indexes := List (String × ValueMap)

def mapGetStr (m : Indexes) (k : String) : Option ValueMap :=
  (m.find? fun e => e.1 == k).map fun e => e.2

def mapHasStr (m : Indexes) (k : String) : Bool :=
  (mapGetStr m k).isSome

def mapGetV (m : ValueMap) (k : Value) : Option (List Nat) :=
  (m.find? fun e => jsEq e.1 k).map fun e => e.2

def mapHasV (m : ValueMap) (k : Value) : Bool :=
  (mapGetV m k).isSome

/-- `Map.set`: replace the first matching key in place, else append. -/
def mapSetV : ValueMap → Value → List Nat → ValueMap
  | [], k, s => [(k, s)]
  | (k', s') :: rest, k, s =>
    if jsEq k' k then (k', s) :: rest else (k', s') :: mapSetV rest k s

/-- Apply a function to the bucket of the first matching key (no-op when the
key is absent, like `map.get(k)?.op()`). -/
def mapModifyV : ValueMap → Value → (List Nat → List Nat) → ValueMap
  | [], _, _ => []
  | (k', s) :: rest, k, f =>
    if jsEq k' k then (k', f s) :: rest else (k', s) :: mapModifyV rest k f

/-- `Set.add`: append if not yet present. -/
def bucketAdd (s : List Nat) (i : Nat) : List Nat :=
  if s.contains i then s else s ++ [i]

/-- `Set.delete`: drop the element, keep the order of the rest. -/
def bucketDel (s : List Nat) (i : Nat) : List Nat :=
  s.filter fun j => j ≠ i

/-- The in-memory state of a `Database` instance, plus the configuration the
claims depend on. `pendingWrites` is the persistence scheduler's "a debounced
save is scheduled" flag set by `queueSave`. The debounce timer itself and the
bytes on disk are not modelled. -/
structure DB where
  data : List Rec
  indexes : Indexes
  pendingWrites : Bool
  autoSave : Bool
  validation : Rec → Bool

/-- `queueSave()`: no-op when `autoSave` is off, else mark a pending write. -/
def queueSave (db : DB) : DB :=
  if db.autoSave then { db with pendingWrites := true } else db

/-! ## Public operations -/

/-- `insert`. The fresh UUID that `crypto.randomUUID()` would produce is
passed in as the oracle `genId`; `record.id ?? genId` takes `genId` exactly
when the caller's `id` is `null` or `undefined`/absent. -/
def insert (db : DB) (record : Rec) (genId : String) : Except String (Rec × DB) :=
  if !db.validation record then Except.error "Record validation failed"
  else
    let idVal :=
      match getField record "id" with
      | Value.null => Value.str genId
      | Value.undef => Value.str genId
      | v => v
    let newRecord := mergeRecords record [("id", idVal)]
    let pos := db.data.length
    let data' := db.data ++ [newRecord]
    -- Update indexes: for every registered field with a defined value on the
    -- new record, add the new position to that value's bucket.
    let indexes' := db.indexes.map fun e =>
      match getField newRecord e.1 with
      | Value.undef => e
      | v =>
        let im := if mapHasV e.2 v then e.2 else mapSetV e.2 v []
        (e.1, mapModifyV im v (fun s => bucketAdd s pos))
    Except.ok (newRecord, queueSave { db with data := data', indexes := indexes' })

/-- The full scan `this.data.filter(item => this.matchesQuery(item, query))`;
a throw at any record aborts the whole call. -/
def scanData : List Rec → Query → Except String (List Rec)
  | [], _ => Except.ok []
  | r :: rest, q => do
    let b ← matchesQuery r q
    let tail ← scanData rest q
    Except.ok (if b then r :: tail else tail)

/-- `find`. A query with exactly one non-object-valued entry is
index-eligible; when that field has an index and the value has a bucket, the
bucket's positions are mapped through `this.data` (dropping out-of-range
positions); every other shape falls back to the full scan. -/
def find (db : DB) (q : Option Query) : Except String (List Rec) :=
  match q with
  | none => Except.ok db.data
  | some query =>
    let simpleQuery := query.filter fun e => !isObjectTyped e.2
    match simpleQuery with
    | [(key, value)] =>
      if mapHasStr db.indexes key then
        match (mapGetStr db.indexes key).bind fun im => mapGetV im value with
        | some positions => Except.ok (positions.filterMap fun i => db.data.get? i)
        | none => scanData db.data query
      else scanData db.data query
    | _ => scanData db.data query

/-- The matching/merging pass of `update` over `this.data` with its running
position `i`: returns the new data, the ascending list of touched positions
and the match count, or the first thrown error. -/
def updateGo (q : Query) (changes : Rec) : List Rec → Nat → Except String (List Rec × List Nat × Nat)
  | [], _ => Except.ok ([], [], 0)
  | r :: rest, i => do
    let b ← matchesQuery r q
    let (ds, touched, c) ← updateGo q changes rest (i + 1)
    if b then Except.ok (mergeRecords r changes :: ds, i :: touched, c + 1)
    else Except.ok (r :: ds, touched, c)

/-- The per-index maintenance of `update` for the touched positions. The
source reads both `oldValue` and `newValue` from `this.data[i]` after the
merge has been stored, so both are the post-merge value. -/
def updateIndexes (indexes : Indexes) (data' : List Rec) (touched : List Nat) : Indexes :=
  indexes.map fun e =>
    (e.1, touched.foldl (fun im i =>
      let oldValue := getField ((data'.get? i).getD []) e.1
      let newValue := oldValue
      let im := mapModifyV im oldValue (fun s => bucketDel s i)
      let im := if mapHasV im newValue then im else mapSetV im newValue []
      mapModifyV im newValue (fun s => bucketAdd s i)) e.2)

/-- `update`: merge `changes` into every matching record, then patch the
indexes and schedule a save when anything matched. -/
def update (db : DB) (q : Query) (changes : Rec) : Except String (Nat × DB) := do
  let (data', touched, count) ← updateGo q changes db.data 0
  if count = 0 then Except.ok (0, { db with data := data' })
  else
    Except.ok (count, queueSave { db with
      data := data',
      indexes := updateIndexes db.indexes data' touched })

/-- The matching pass of `delete`: ascending positions of matches, or the
first thrown error. -/
def collectGo (q : Query) : List Rec → Nat → Except String (List Nat)
  | [], _ => Except.ok []
  | r :: rest, i => do
    let b ← matchesQuery r q
    let ps ← collectGo q rest (i + 1)
    Except.ok (if b then i :: ps else ps)

/-- Remove the records at the given positions (`i` is the position of the
head). The source splices the collected positions in descending order;
splicing a strictly descending sequence leaves every smaller position stable,
so the net effect is removing exactly the collected set with the survivors'
order preserved, which is what this computes. -/
def removeIdxs : List Rec → List Nat → Nat → List Rec
  | [], _, _ => []
  | r :: rest, ps, i =>
    if ps.contains i then removeIdxs rest ps (i + 1)
    else r :: removeIdxs rest ps (i + 1)

/-- `delete`: remove every matching record, clear all indexes
(unconditionally), schedule a save when anything was removed, return the
count removed. -/
def deleteOp (db : DB) (q : Query) : Except String (Nat × DB) := do
  let ps ← collectGo q db.data 0
  let data' := removeIdxs db.data ps 0
  let db' := { db with data := data', indexes := [] }
  Except.ok (ps.length, if ps.length > 0 then queueSave db' else db')

/-- Modelled from the spec: `registerField(field)` (§4.2) is required by the
spec but absent from the source (`this.indexes` is never given a key by any
code path); it builds an index for `field` by scanning all current records
once — one bucket entry per defined value, positions ascending — and is
idempotent if the field is already registered. -/
def registerField (db : DB) (field : String) : DB :=
  if mapHasStr db.indexes field then db
  else
    let im := db.data.enum.foldl (fun im e =>
      match getField e.2 field with
      | Value.undef => im
      | v =>
        let im := if mapHasV im v then im else mapSetV im v []
        mapModifyV im v (fun s => bucketAdd s e.1)) []
    { db with indexes := db.indexes ++ [(field, im)] }

/-! ## Stated properties -/

/-- The index invariant exactly as the spec states it (§3): for every indexed
field and every record position with a defined value for that field, the
position is in that value's bucket and absent from every bucket of a
distinct value. -/
def indexInvariant (db : DB) : Prop :=
  ∀ key im, mapGetStr db.indexes key = some im →
    ∀ p (hp : p < db.data.length),
      getField (db.data.get ⟨p, hp⟩) key ≠ Value.undef →
        (∃ ps, mapGetV im (getField (db.data.get ⟨p, hp⟩) key) = some ps ∧ p ∈ ps) ∧
        (∀ w ps, (w, ps) ∈ im → jsEq w (getField (db.data.get ⟨p, hp⟩) key) = false → p ∉ ps)

/-- States reachable through the public operations: a freshly constructed
instance (any loaded data, fresh empty index map, no pending write) followed
by any number of successful `insert`/`update`/`delete` calls (`find` does not
change the state). -/
inductive Reachable : DB → Prop where
  | init (data : List Rec) (autoSave : Bool) (validation : Rec → Bool) :
      Reachable ⟨data, [], false, autoSave, validation⟩
  | insertStep {db : DB} (record : Rec) (genId : String) {r : Rec} {db' : DB} :
      Reachable db → insert db record genId = Except.ok (r, db') → Reachable db'
  | updateStep {db : DB} (q : Query) (changes : Rec) {n : Nat} {db' : DB} :
      Reachable db → update db q changes = Except.ok (n, db') → Reachable db'
  | deleteStep {db : DB} (q : Query) {n : Nat} {db' : DB} :
      Reachable db → deleteOp db q = Except.ok (n, db') → Reachable db'

/-- The accept-all validation predicate (the engine's default). -/
def acceptAll : Rec → Bool := fun _ => true

/-! ## Additional predicates and concrete stores used by the development -/

/-- A store with one record `{id:"r1", a:1}` and (via the spec-modelled
`registerField`) an index on field `a`. -/
def dbC1 : DB :=
  registerField ⟨[[("id", Value.str "r1"), ("a", Value.num 1)]], [], false, true, acceptAll⟩ "a"

/-- The state the engine computes for `update({}, {a: 2})` on `dbC1`: the
record now holds `a = 2`, but position 0 is still in the bucket of the old
value `1` (the maintenance code reads `oldValue` after the merge is stored,
so the old bucket is never vacated) and is also added to the bucket of `2`. -/
def dbC1after : DB :=
  ⟨[[("id", Value.str "r1"), ("a", Value.num 2)]],
    [("a", [(Value.num 1, [0]), (Value.num 2, [0])])], true, true, acceptAll⟩

/-- A freshly constructed empty store with default options. -/
def emptyDB : DB := ⟨[], [], false, true, acceptAll⟩

/-- A store with the single record `{id:"a", n:1}`. -/
def dbC4 : DB := ⟨[[("id", Value.str "a"), ("n", Value.num 1)]], [], false, true, acceptAll⟩

/-- The record `{id:"x", tags:["a"]}` (its array has identity tag 0). -/
def recC6 : Rec := [("id", Value.str "x"), ("tags", Value.arr 0 [Value.str "a"])]

/-- A store whose single record `{id:"x"}` has no `a` field at all, while
the index for `a` has a stale bucket `1 → {0}`. The spec's stated invariant
is vacuously satisfied (it only constrains positions whose record has a
defined value). -/
def dbC9bad : DB :=
  ⟨[[("id", Value.str "x")]], [("a", [(Value.num 1, [0])])], false, true, acceptAll⟩

/-- Does a constraint carry an operator symbol outside the recognized set?
(`Object.entries` of an array constraint yields its index strings, which are
never recognized.) -/
def condHasUnknownOp : Value → Bool
  | Value.arr _ xs => (arrEntries xs).any fun e => !recognizedOp e.1
  | Value.obj _ fs => fs.any fun e => !recognizedOp e.1
  | _ => false

/-- Does any field constraint of the query carry an unknown operator? -/
def hasUnknownOp (q : Query) : Bool :=
  q.any fun e => condHasUnknownOp e.2

/-- The store used by the C8 witness: records `{id:"x", n:1}` and
`{id:"y", n:2}`. -/
def dbC8w : DB :=
  ⟨[[("id", Value.str "x"), ("n", Value.num 1)],
    [("id", Value.str "y"), ("n", Value.num 2)]], [], false, true, acceptAll⟩

/-- The C8 witness query `{n: {$lt: 2}}`. -/
def qC8 : Query := [("n", Value.obj 0 [("$lt", Value.num 2)])]

/-- The converse direction the spec's stated invariant lacks: every position
in every bucket belongs to an in-range record whose value for the indexed
field is (`SameValueZero`-)equal to the bucket's key. -/
def soundIndexes (db : DB) : Prop :=
  ∀ key im, mapGetStr db.indexes key = some im →
    ∀ w ps, (w, ps) ∈ im → ∀ p ∈ ps,
      ∃ hp : p < db.data.length,
        jsEq (getField (db.data.get ⟨p, hp⟩) key) w = true

/-- The store used by the C9 witness: one record `{id:"x", a:1}` with a
correct (sound and complete) index on `a`. -/
def dbC9w : DB :=
  ⟨[[("id", Value.str "x"), ("a", Value.num 1)]],
    [("a", [(Value.num 1, [0])])], false, true, acceptAll⟩

/-! ## Basic lemmas -/

theorem queueSave_indexes (db : DB) : (queueSave db).indexes = db.indexes := by
  unfold queueSave; split <;> rfl

theorem queueSave_data (db : DB) : (queueSave db).data = db.data := by
  unfold queueSave; split <;> rfl

theorem matchesQuery_nil (r : Rec) : matchesQuery r [] = Except.ok true := rfl

theorem ok_bind {α β : Type} (a : α) (f : α → Except String β) :
    (Except.ok a : Except String α) >>= f = f a := rfl

theorem error_bind {α β : Type} (e : String) (f : α → Except String β) :
    (Except.error e : Except String α) >>= f = Except.error e := rfl

theorem scanData_nil_query : ∀ data : List Rec, scanData data [] = Except.ok data
  | [] => rfl
  | r :: rest => by
    simp [scanData, matchesQuery_nil, scanData_nil_query rest, ok_bind]

theorem updateGo_nil_query (changes : Rec) :
    ∀ (data : List Rec) (i : Nat),
      updateGo [] changes data i =
        Except.ok (data.map (fun r => mergeRecords r changes),
          List.range' i data.length, data.length)
  | [], _ => rfl
  | r :: rest, i => by
    simp [updateGo, matchesQuery_nil, updateGo_nil_query changes rest (i + 1),
      ok_bind, List.range'_succ]

theorem collectGo_nil_query :
    ∀ (data : List Rec) (i : Nat),
      collectGo [] data i = Except.ok (List.range' i data.length)
  | [], _ => rfl
  | r :: rest, i => by
    simp [collectGo, matchesQuery_nil, collectGo_nil_query rest (i + 1),
      ok_bind, List.range'_succ]

theorem removeIdxs_all :
    ∀ (data : List Rec) (ps : List Nat) (i : Nat),
      (∀ j, i ≤ j → j < i + data.length → ps.contains j = true) →
      removeIdxs data ps i = []
  | [], _, _, _ => rfl
  | r :: rest, ps, i, h => by
    have hi : ps.contains i = true := h i le_rfl (by simp)
    simp only [removeIdxs, hi, if_pos]
    exact removeIdxs_all rest ps (i + 1) fun j h1 h2 =>
      h j (by omega) (by simp at h2 ⊢; omega)

/-! ## Claim C10 -/

/-- C10: a query with no field constraints (an empty mapping) matches every
record: `find({})` returns every stored record, `update({}, changes)` merges
`changes` into every record and returns the total record count, and
`delete({})` removes every record and returns the prior count. -/
theorem empty_query_matches_all (db : DB) (changes : Rec) :
    find db (some []) = Except.ok db.data ∧
    (∃ db', update db [] changes = Except.ok (db.data.length, db') ∧
      db'.data = db.data.map fun r => mergeRecords r changes) ∧
    (∃ db', deleteOp db [] = Except.ok (db.data.length, db') ∧ db'.data = []) := by
  refine ⟨?_, ?_, ?_⟩
  · simp [find, scanData_nil_query]
  · unfold update
    rw [updateGo_nil_query]
    by_cases h0 : db.data.length = 0
    · rw [List.length_eq_zero] at h0
      refine ⟨{ db with data := db.data.map fun r => mergeRecords r changes }, ?_, rfl⟩
      simp [h0, ok_bind]
    · refine ⟨queueSave { db with
          data := db.data.map fun r => mergeRecords r changes,
          indexes := updateIndexes db.indexes
            (db.data.map fun r => mergeRecords r changes)
            (List.range' 0 db.data.length) }, ?_, ?_⟩
      · simp [ok_bind, h0]
      · simp [queueSave_data]
  · unfold deleteOp
    rw [collectGo_nil_query]
    have hrm : removeIdxs db.data (List.range' 0 db.data.length) 0 = [] := by
      apply removeIdxs_all
      intro j h1 h2
      have hj : j ∈ List.range' 0 db.data.length := by
        simp only [List.mem_range'_1]; omega
      simpa [List.contains] using List.elem_eq_true_of_mem hj
    by_cases h0 : 0 < (List.range' 0 db.data.length).length
    · refine ⟨queueSave { db with
          data := removeIdxs db.data (List.range' 0 db.data.length) 0,
          indexes := [] }, ?_, ?_⟩
      · simp [ok_bind, h0]
        intro hnil
        rw [hnil] at h0
        simp at h0
      · simp [queueSave_data, hrm]
    · refine ⟨{ db with
          data := removeIdxs db.data (List.range' 0 db.data.length) 0,
          indexes := [] }, ?_, ?_⟩
      · simp [ok_bind, h0]
        simp at h0
        simp [h0]
      · simp [hrm]

/-! ## Claim C5 -/

/-- C5: no sequence of public operations ever registers an index: the
`indexes` map of every reachable state is empty, so `find`'s
index-accelerated lookup path is dead code (contradicting the README's
"automatic indexing" and the spec's required `registerField` path). -/
theorem reachable_indexes_empty (db : DB) (h : Reachable db) : db.indexes = [] := by
  induction h with
  | init data autoSave validation => rfl
  | insertStep record genId hre heq ih =>
    rename_i db db' r
    unfold insert at heq
    split at heq
    · exact absurd heq (by simp)
    · simp only [Except.ok.injEq, Prod.mk.injEq] at heq
      rw [← heq.2, queueSave_indexes]
      simp [ih]
  | updateStep q changes hre heq ih =>
    rename_i db n db'
    unfold update at heq
    cases hgo : updateGo q changes db.data 0 with
    | error e => rw [hgo] at heq; exact absurd heq (by simp [error_bind])
    | ok res =>
      obtain ⟨data', touched, count⟩ := res
      rw [hgo] at heq
      simp only [ok_bind] at heq
      split at heq
      · simp only [Except.ok.injEq, Prod.mk.injEq] at heq
        rw [← heq.2]
        exact ih
      · simp only [Except.ok.injEq, Prod.mk.injEq] at heq
        rw [← heq.2, queueSave_indexes]
        simp [updateIndexes, ih]
  | deleteStep q hre heq ih =>
    rename_i db n db'
    unfold deleteOp at heq
    cases hc : collectGo q db.data 0 with
    | error e => rw [hc] at heq; exact absurd heq (by simp [error_bind])
    | ok ps =>
      rw [hc] at heq
      simp only [ok_bind, Except.ok.injEq, Prod.mk.injEq] at heq
      rw [← heq.2]
      split <;> simp [queueSave_indexes]

/-- Witness for C5: the state after one insert on a fresh store is reachable
and its `indexes` map is empty. -/
theorem reachable_indexes_empty_witness :
    (DB.mk [[("name", Value.str "Alice"), ("id", Value.str "id-1")]] [] true true acceptAll).indexes = [] :=
  reachable_indexes_empty _
    (Reachable.insertStep [("name", Value.str "Alice")] "id-1"
      (Reachable.init [] true acceptAll) (by rfl))

/-! ## Claim C1 -/

/-- C1: the index invariant does NOT hold after every mutating operation.
After `update({}, {a: 2})` on a store with an index on `a` and one record
with `a = 1`, position 0 remains in `index[a][1]` although the record's
value for `a` is now `2`. -/
theorem update_violates_index_invariant :
    update dbC1 [] [("a", Value.num 2)] = Except.ok (1, dbC1after) ∧
    ¬ indexInvariant dbC1after := by
  refine ⟨by rfl, ?_⟩
  intro h
  have h0 := h "a" [(Value.num 1, [0]), (Value.num 2, [0])] rfl 0 (by decide)
    (fun hc => Value.noConfusion hc)
  exact h0.2 (Value.num 1) [0] (List.mem_cons_self _ _) (by rfl) (by simp)

/-! ## Claim C2 counterexample -/

/-- C2 counterexample: on an empty store, `delete` with a query containing
the unknown operator `$bogus` returns 0 without raising any error — the
evaluator never reaches the operator, so the claimed unconditional
`UnsupportedOperatorError` does not occur. -/
theorem unknown_op_delete_no_error :
    deleteOp emptyDB [("a", Value.obj 0 [("$bogus", Value.num 1)])] =
      Except.ok (0, emptyDB) := by rfl

/-! ## Claim C3 counterexample -/

/-- C3 counterexample: inserting `{id:"x", n:1}` and then `{id:"x", n:2}`
both succeed and leave two stored records sharing the `id` `"x"`: the engine
never checks a caller-supplied `id` for uniqueness. -/
theorem insert_allows_duplicate_id :
    ∃ r1 db1 r2 db2,
      insert emptyDB [("id", Value.str "x"), ("n", Value.num 1)] "uuid-1" =
        Except.ok (r1, db1) ∧
      insert db1 [("id", Value.str "x"), ("n", Value.num 2)] "uuid-2" =
        Except.ok (r2, db2) ∧
      db2.data.map (fun r => getField r "id") = [Value.str "x", Value.str "x"] := by
  exact ⟨_, _, _, _, rfl, rfl, rfl⟩

/-! ## Claim C4 counterexample -/

/-- C4 counterexample: `update({n:1}, {id:"b"})` shallow-merges the
`changes.id` entry into the matching record, changing its `id` from `"a"`
to `"b"` — the `id` is neither ignored nor rejected. -/
theorem update_merges_changes_id :
    ∃ db', update dbC4 [("n", Value.num 1)] [("id", Value.str "b")] =
        Except.ok (1, db') ∧
      db'.data.map (fun r => getField r "id") = [Value.str "b"] := by
  exact ⟨_, rfl, rfl⟩

/-! ## Claim C6 counterexample -/

/-- C6 counterexample: a `$eq` constraint whose operand is an array with the
same contents `["a"]` but a distinct identity does not match (strict
equality compares references), and a bare array literal constraint is not
even treated as an equality test — its `Object.entries` index keys hit the
unsupported-operator throw. -/
theorem eq_array_contents_no_match :
    matchesQuery recC6 [("tags", Value.obj 1 [("$eq", Value.arr 2 [Value.str "a"])])] =
      Except.ok false ∧
    matchesQuery recC6 [("tags", Value.arr 2 [Value.str "a"])] =
      Except.error "Unsupported operator: 0" := by
  exact ⟨rfl, rfl⟩

/-! ## Claim C7 counterexample -/

/-- C7 counterexample: `$lt` against a type-mismatched value is not always
false — the record field `"3"` (a string) coerces to the number 3, so
`{a:"3"}` matches `{a:{$lt:5}}`; and `$in` with a non-sequence operand
crashes with a `TypeError` instead of evaluating to false. -/
theorem ordering_type_mismatch_matches :
    matchesQuery [("id", Value.str "x"), ("a", Value.str "3")]
      [("a", Value.obj 0 [("$lt", Value.num 5)])] = Except.ok true ∧
    matchesQuery [("id", Value.str "x"), ("a", Value.num 3)]
      [("a", Value.obj 0 [("$in", Value.num 3)])] =
      Except.error "TypeError: value.includes is not a function" := by
  exact ⟨rfl, rfl⟩

/-! ## Claim C9 counterexample -/

/-- C9 counterexample: `dbC9bad` satisfies the stated index invariant, yet
`find({a: 1})` takes the index path and returns the record `{id:"x"}` while
the full scan of `a == 1` returns nothing — the stated invariant is too weak
to guarantee index/scan equivalence. -/
theorem index_scan_disagree_under_stated_invariant :
    indexInvariant dbC9bad ∧
    find dbC9bad (some [("a", Value.num 1)]) = Except.ok [[("id", Value.str "x")]] ∧
    scanData dbC9bad.data [("a", Value.num 1)] = Except.ok [] := by
  refine ⟨?_, rfl, rfl⟩
  intro key im hkey p hp hdef
  have hp0 : p = 0 := by
    have : dbC9bad.data.length = 1 := rfl
    omega
  subst hp0
  by_cases hb : (("a" : String) == key) = true
  · have hkeya : key = "a" := (eq_of_beq hb).symm
    subst hkeya
    exact absurd rfl hdef
  · unfold dbC9bad mapGetStr at hkey
    rw [List.find?_cons_of_neg _ (by simpa using hb)] at hkey
    simp at hkey

/-! ## Evaluator structure lemmas -/

theorem matchesQuery_single (item : Rec) (key : String) (cond : Value) :
    matchesQuery item [(key, cond)] = evalConstraint item key cond := by
  show (do
    let b ← evalConstraint item key cond
    if b then matchesQuery item [] else Except.ok false) = _
  cases h : evalConstraint item key cond with
  | error e => exact error_bind _ _
  | ok b => cases b <;> simp [ok_bind, matchesQuery]

theorem evalCondEntries_single (x : Value) (op : String) (v : Value) :
    evalCondEntries x [(op, v)] = evalOp x op v := by
  show (do
    let b ← evalOp x op v
    if b then evalCondEntries x [] else Except.ok false) = _
  cases h : evalOp x op v with
  | error e => exact error_bind _ _
  | ok b => cases b <;> simp [ok_bind, evalCondEntries]

theorem evalConstraint_literal (item : Rec) (key : String) (cond : Value)
    (h : isObjectTyped cond = false) :
    evalConstraint item key cond = Except.ok (jsEq (getField item key) cond) := by
  cases cond <;> first
    | rfl
    | simp [isObjectTyped] at h

/-! ## Claim C6 amended -/

/-- C6 amended: a literal (non-object) constraint and a `$eq` constraint are
satisfied exactly when the record's value and the operand are strictly equal
(`===`): value equality for primitives, reference identity for arrays. -/
theorem literal_and_eq_use_strict_equality
    (item : Rec) (key : String) (v : Value) (r : Nat)
    (hv : isObjectTyped v = false) :
    matchesQuery item [(key, v)] = Except.ok (jsEq (getField item key) v) ∧
    matchesQuery item [(key, Value.obj r [("$eq", v)])] =
      Except.ok (jsEq (getField item key) v) ∧
    (∀ r1 r2 es1 es2, jsEq (Value.arr r1 es1) (Value.arr r2 es2) = (r1 == r2)) := by
  refine ⟨?_, ?_, fun r1 r2 es1 es2 => rfl⟩
  · rw [matchesQuery_single, evalConstraint_literal item key v hv]
  · rw [matchesQuery_single]
    show evalCondEntries (getField item key) [("$eq", v)] = _
    rw [evalCondEntries_single]
    rfl

/-- Witness for the C6 amended theorem at a concrete input: the literal
constraint `{a: 7}` on a record with `a = 7` matches. -/
theorem literal_and_eq_use_strict_equality_witness :
    matchesQuery [("a", Value.num 7)] [("a", Value.num 7)] =
      Except.ok (jsEq (getField [("a", Value.num 7)] "a") (Value.num 7)) :=
  (literal_and_eq_use_strict_equality [("a", Value.num 7)] "a" (Value.num 7) 0 rfl).1

/-! ## Claim C4 amended -/

theorem lookupField_filter_of_none (k : String) (p : String × Value → Bool) :
    ∀ changes : Rec, lookupField changes k = none →
      lookupField (changes.filter p) k = none := by
  intro changes
  induction changes with
  | nil => intro h; rfl
  | cons e rest ih =>
    intro h
    unfold lookupField at h ⊢
    cases hbe : (e.1 == k) with
    | true => simp [List.find?, hbe] at h
    | false =>
      simp only [List.find?, hbe] at h
      cases hp : p e with
      | true =>
        rw [List.filter_cons_of_pos hp]
        simp only [List.find?, hbe]
        exact ih h
      | false =>
        rw [List.filter_cons_of_neg (by simp [hp])]
        exact ih h

theorem lookupField_mapped (changes : Rec) (k : String) :
    ∀ r : Rec,
      lookupField (r.map fun e => (e.1, (lookupField changes e.1).getD e.2)) k =
        (lookupField r k).map fun v => (lookupField changes k).getD v := by
  intro r
  induction r with
  | nil => rfl
  | cons e rest ih =>
    unfold lookupField at ih ⊢
    rw [List.map_cons]
    cases hbe : (e.1 == k) with
    | true =>
      have hk : e.1 = k := eq_of_beq hbe
      simp [List.find?, hbe, hk]
    | false =>
      simp only [List.find?, hbe]
      exact ih

theorem lookupField_append (a b : Rec) (k : String) :
    lookupField (a ++ b) k =
      match lookupField a k with
      | some v => some v
      | none => lookupField b k := by
  induction a with
  | nil => simp [lookupField]
  | cons e rest ih =>
    unfold lookupField at ih ⊢
    rw [List.cons_append]
    cases hbe : (e.1 == k) with
    | true => simp [List.find?, hbe]
    | false =>
      simp only [List.find?, hbe]
      exact ih

theorem getField_mergeRecords_of_none (r changes : Rec) (k : String)
    (h : lookupField changes k = none) :
    getField (mergeRecords r changes) k = getField r k := by
  unfold mergeRecords getField
  rw [lookupField_append, lookupField_mapped changes k r]
  cases hr : lookupField r k with
  | some v => simp [h]
  | none => simp [lookupField_filter_of_none k _ changes h]

theorem updateGo_preserves_ids (q : Query) (changes : Rec)
    (hid : lookupField changes "id" = none) :
    ∀ (data : List Rec) (i : Nat) ds t c,
      updateGo q changes data i = Except.ok (ds, t, c) →
      ds.map (fun r => getField r "id") = data.map fun r => getField r "id" := by
  intro data
  induction data with
  | nil =>
    intro i ds t c h
    simp only [updateGo, Except.ok.injEq, Prod.mk.injEq] at h
    rw [← h.1]
  | cons r rest ih =>
    intro i ds t c h
    unfold updateGo at h
    cases hm : matchesQuery r q with
    | error e => rw [hm] at h; exact absurd h (by simp [error_bind])
    | ok b =>
      rw [hm] at h
      simp only [ok_bind] at h
      cases hgo : updateGo q changes rest (i + 1) with
      | error e => rw [hgo] at h; exact absurd h (by simp [error_bind])
      | ok res =>
        obtain ⟨ds', t', c'⟩ := res
        rw [hgo] at h
        simp only [ok_bind] at h
        have ihds := ih (i + 1) ds' t' c' hgo
        cases b with
        | true =>
          rw [if_pos rfl] at h
          simp only [Except.ok.injEq, Prod.mk.injEq] at h
          rw [← h.1]
          simp [getField_mergeRecords_of_none r changes "id" hid, ihds]
        | false =>
          rw [if_neg (by simp)] at h
          simp only [Except.ok.injEq, Prod.mk.injEq] at h
          rw [← h.1]
          simp [ihds]

/-- C4 amended: `update` leaves every record's `id` unchanged exactly when
`changes` carries no `id` entry; a `changes.id` entry is shallow-merged into
matching records (it is not ignored or rejected — the counterexample shows
it overwriting an `id`). -/
theorem update_preserves_ids_without_changes_id
    (db : DB) (q : Query) (changes : Rec) (n : Nat) (db' : DB)
    (hid : lookupField changes "id" = none)
    (h : update db q changes = Except.ok (n, db')) :
    db'.data.map (fun r => getField r "id") = db.data.map fun r => getField r "id" := by
  unfold update at h
  cases hgo : updateGo q changes db.data 0 with
  | error e => rw [hgo] at h; exact absurd h (by simp [error_bind])
  | ok res =>
    obtain ⟨data', touched, count⟩ := res
    rw [hgo] at h
    simp only [ok_bind] at h
    have hids := updateGo_preserves_ids q changes hid db.data 0 data' touched count hgo
    split at h <;>
      (simp only [Except.ok.injEq, Prod.mk.injEq] at h
       rw [← h.2]
       simpa [queueSave_data] using hids)

/-- Witness for the C4 amended theorem: updating with changes `{m: 2}` (no
`id` entry) preserves the single record's `id`. -/
theorem update_preserves_ids_without_changes_id_witness :
    (DB.mk [[("id", Value.str "a"), ("n", Value.num 1), ("m", Value.num 2)]]
        (updateIndexes [] [[("id", Value.str "a"), ("n", Value.num 1), ("m", Value.num 2)]] [0])
        true true acceptAll).data.map (fun r => getField r "id") =
      dbC4.data.map fun r => getField r "id" :=
  update_preserves_ids_without_changes_id dbC4 [("n", Value.num 1)] [("m", Value.num 2)]
    1 _ rfl rfl

/-! ## Claim C3 amended -/

theorem getField_mergeRecords_id (record : Rec) (v : Value) :
    getField (mergeRecords record [("id", v)]) "id" = v := by
  unfold mergeRecords getField
  rw [lookupField_append, lookupField_mapped [("id", v)] "id" record]
  cases hr : lookupField record "id" with
  | some w => simp [lookupField, List.find?]
  | none =>
    unfold lookupField at hr
    cases hx : List.find? (fun e => e.1 == "id") record with
    | some w => rw [hx] at hr; simp at hr
    | none => simp [hx, lookupField, List.find?]

/-- C3 amended: every successful insert returns a record whose `id` is
defined (the caller-supplied value when it is neither null nor undefined,
else the freshly generated UUID string), and the assigned `id` is appended
to the stored id sequence; uniqueness of ids is preserved only under the
extra assumption that the assigned `id` is fresh — the engine itself never
checks, so a caller-supplied duplicate breaks the invariant (see the
counterexample). -/
theorem insert_id_defined_unique_if_fresh
    (db : DB) (record : Rec) (genId : String) (r : Rec) (db' : DB)
    (h : insert db record genId = Except.ok (r, db'))
    (hnd : (db.data.map fun x => getField x "id").Nodup)
    (hfresh : getField r "id" ∉ db.data.map fun x => getField x "id") :
    getField r "id" ≠ Value.undef ∧
    db'.data.map (fun x => getField x "id") =
      (db.data.map fun x => getField x "id") ++ [getField r "id"] ∧
    (db'.data.map fun x => getField x "id").Nodup := by
  unfold insert at h
  split at h
  · exact absurd h (by simp)
  · simp only [Except.ok.injEq, Prod.mk.injEq] at h
    obtain ⟨hr, hdb⟩ := h
    have hdata : db'.data = db.data ++ [r] := by
      rw [← hdb, queueSave_data, hr]
    have hids : db'.data.map (fun x => getField x "id") =
        (db.data.map fun x => getField x "id") ++ [getField r "id"] := by
      rw [hdata, List.map_append, List.map_cons, List.map_nil]
    refine ⟨?_, hids, ?_⟩
    · rw [← hr, getField_mergeRecords_id]
      cases hv : getField record "id" <;> exact fun hc => Value.noConfusion hc
    · rw [hids]
      simp [List.nodup_append, hnd, hfresh]

/-- Witness for the C3 amended theorem: inserting `{n:1}` with generated id
`"u1"` into an empty store yields a defined id and a duplicate-free store. -/
theorem insert_id_defined_unique_if_fresh_witness :
    getField [("n", Value.num 1), ("id", Value.str "u1")] "id" ≠ Value.undef ∧
    (DB.mk [[("n", Value.num 1), ("id", Value.str "u1")]] [] true true acceptAll).data.map
        (fun x => getField x "id") =
      (emptyDB.data.map fun x => getField x "id") ++
        [getField [("n", Value.num 1), ("id", Value.str "u1")] "id"] ∧
    ((DB.mk [[("n", Value.num 1), ("id", Value.str "u1")]] [] true true acceptAll).data.map
        fun x => getField x "id").Nodup :=
  insert_id_defined_unique_if_fresh emptyDB [("n", Value.num 1)] "u1" _ _ rfl
    List.nodup_nil (List.not_mem_nil _)

/-! ## Claim C7 amended -/

theorem evalOp_unsupported (x : Value) (op : String) (v : Value)
    (h : recognizedOp op = false) :
    evalOp x op v = Except.error ("Unsupported operator: " ++ op) := by
  unfold recognizedOp at h
  simp only [Bool.or_eq_false_iff] at h
  obtain ⟨⟨⟨⟨⟨⟨⟨⟨⟨⟨h1, h2⟩, h3⟩, h4⟩, h5⟩, h6⟩, h7⟩, h8⟩, h9⟩, h10⟩, h11⟩ := h
  simp [evalOp, h1, h2, h3, h4, h5, h6, h7, h8, h9, h10, h11]

theorem jsCompare_undef_left (v : Value) : jsCompare Value.undef v = none := by
  unfold jsCompare
  cases hv : toPrim v <;> rfl

/-- C7 amended: every recognized operator evaluates without raising an error
provided `$in`/`$nin` get an in-language (sequence or string) operand, and
the four ordering operators applied to an absent field (`undefined`) are
false; but a type-mismatched value is not uniformly false — JavaScript
coercion applies (the counterexample shows `"3" < 5` matching), and
`$in`/`$nin` with a non-sequence operand crash. -/
theorem recognized_ops_never_throw
    (x v : Value) (op : String)
    (hrec : recognizedOp op = true)
    (hseq : op = "$in" ∨ op = "$nin" →
      (∃ ref es, v = Value.arr ref es) ∨ ∃ s, v = Value.str s) :
    (∃ b, evalOp x op v = Except.ok b) ∧
    evalOp Value.undef "$gt" v = Except.ok false ∧
    evalOp Value.undef "$gte" v = Except.ok false ∧
    evalOp Value.undef "$lt" v = Except.ok false ∧
    evalOp Value.undef "$lte" v = Except.ok false := by
  refine ⟨?_, ?_, ?_, ?_, ?_⟩
  · simp only [recognizedOp, Bool.or_eq_true, beq_iff_eq] at hrec
    rcases hrec with ((((((((((rfl | rfl) | rfl) | rfl) | rfl) | rfl) | rfl) |
      rfl) | rfl) | rfl) | rfl)
    · exact ⟨_, rfl⟩
    · exact ⟨_, rfl⟩
    · exact ⟨_, rfl⟩
    · exact ⟨_, rfl⟩
    · exact ⟨_, rfl⟩
    · exact ⟨_, rfl⟩
    · rcases hseq (Or.inl rfl) with ⟨ref, es, rfl⟩ | ⟨s, rfl⟩
      · exact ⟨_, rfl⟩
      · exact ⟨_, rfl⟩
    · rcases hseq (Or.inr rfl) with ⟨ref, es, rfl⟩ | ⟨s, rfl⟩
      · exact ⟨_, rfl⟩
      · exact ⟨_, rfl⟩
    · exact ⟨_, rfl⟩
    · exact ⟨_, rfl⟩
    · exact ⟨_, rfl⟩
  · simp [evalOp, jsGt, jsCompare_undef_left v]
  · simp [evalOp, jsGte, jsCompare_undef_left v]
  · simp [evalOp, jsLt, jsCompare_undef_left v]
  · simp [evalOp, jsLte, jsCompare_undef_left v]

/-- Witness for the C7 amended theorem at `$in` with a sequence operand. -/
theorem recognized_ops_never_throw_witness :
    (∃ b, evalOp (Value.num 3) "$in" (Value.arr 0 [Value.num 3]) = Except.ok b) ∧
    evalOp Value.undef "$gt" (Value.arr 0 [Value.num 3]) = Except.ok false ∧
    evalOp Value.undef "$gte" (Value.arr 0 [Value.num 3]) = Except.ok false ∧
    evalOp Value.undef "$lt" (Value.arr 0 [Value.num 3]) = Except.ok false ∧
    evalOp Value.undef "$lte" (Value.arr 0 [Value.num 3]) = Except.ok false :=
  recognized_ops_never_throw (Value.num 3) (Value.arr 0 [Value.num 3]) "$in" rfl
    (fun _ => Or.inl ⟨0, [Value.num 3], rfl⟩)

/-! ## Claim C2 amended -/

theorem evalCondEntries_unknown_not_true (x : Value) :
    ∀ entries : List (String × Value),
      (entries.any fun e => !recognizedOp e.1) = true →
      evalCondEntries x entries ≠ Except.ok true := by
  intro entries
  induction entries with
  | nil => intro h; simp at h
  | cons e rest ih =>
    obtain ⟨op, v⟩ := e
    intro h hcontra
    unfold evalCondEntries at hcontra
    cases hop : recognizedOp op with
    | false =>
      rw [evalOp_unsupported x op v hop] at hcontra
      simp [error_bind] at hcontra
    | true =>
      have hrest : (rest.any fun e => !recognizedOp e.1) = true := by
        simpa [hop] using h
      cases he : evalOp x op v with
      | error e => rw [he] at hcontra; simp [error_bind] at hcontra
      | ok b =>
        rw [he] at hcontra
        simp only [ok_bind] at hcontra
        cases b with
        | false => simp at hcontra
        | true =>
          rw [if_pos rfl] at hcontra
          exact ih hrest hcontra

theorem evalConstraint_unknown_not_true (item : Rec) (key : String) (cond : Value)
    (h : condHasUnknownOp cond = true) :
    evalConstraint item key cond ≠ Except.ok true := by
  cases cond with
  | arr ref xs =>
    exact evalCondEntries_unknown_not_true _ _ (by simpa [condHasUnknownOp] using h)
  | obj ref fs =>
    exact evalCondEntries_unknown_not_true _ _ (by simpa [condHasUnknownOp] using h)
  | null => simp [condHasUnknownOp] at h
  | undef => simp [condHasUnknownOp] at h
  | bool b => simp [condHasUnknownOp] at h
  | num n => simp [condHasUnknownOp] at h
  | str s => simp [condHasUnknownOp] at h

theorem matchesQuery_unknown_not_true (item : Rec) :
    ∀ q : Query, hasUnknownOp q = true → matchesQuery item q ≠ Except.ok true := by
  intro q
  induction q with
  | nil => intro h; simp [hasUnknownOp] at h
  | cons e rest ih =>
    obtain ⟨key, cond⟩ := e
    intro h hcontra
    unfold matchesQuery at hcontra
    cases hc : evalConstraint item key cond with
    | error e => rw [hc] at hcontra; simp [error_bind] at hcontra
    | ok b =>
      rw [hc] at hcontra
      simp only [ok_bind] at hcontra
      cases b with
      | false => simp at hcontra
      | true =>
        rw [if_pos rfl] at hcontra
        have hsplit : condHasUnknownOp cond = true ∨ hasUnknownOp rest = true := by
          simpa [hasUnknownOp, Bool.or_eq_true] using h
        rcases hsplit with hh | hh
        · exact evalConstraint_unknown_not_true item key cond hh hc
        · exact ih hh hcontra

theorem updateGo_unknown (q : Query) (changes : Rec) (h : hasUnknownOp q = true) :
    ∀ (data : List Rec) (i : Nat),
      (∃ e, updateGo q changes data i = Except.error e) ∨
      updateGo q changes data i = Except.ok (data, [], 0) := by
  intro data
  induction data with
  | nil => intro i; exact Or.inr rfl
  | cons r rest ih =>
    intro i
    cases hm : matchesQuery r q with
    | error e =>
      refine Or.inl ⟨e, ?_⟩
      unfold updateGo
      rw [hm]
      exact error_bind _ _
    | ok b =>
      have hb : b = false := by
        cases b
        · rfl
        · exact absurd hm (matchesQuery_unknown_not_true r q h)
      subst hb
      rcases ih (i + 1) with ⟨e, he⟩ | hok
      · refine Or.inl ⟨e, ?_⟩
        unfold updateGo
        rw [hm]
        simp only [ok_bind]
        rw [he]
        exact error_bind _ _
      · refine Or.inr ?_
        unfold updateGo
        rw [hm]
        simp only [ok_bind]
        rw [hok]
        simp only [ok_bind]
        rw [if_neg (by simp)]

theorem collectGo_unknown (q : Query) (h : hasUnknownOp q = true) :
    ∀ (data : List Rec) (i : Nat),
      (∃ e, collectGo q data i = Except.error e) ∨
      collectGo q data i = Except.ok [] := by
  intro data
  induction data with
  | nil => intro i; exact Or.inr rfl
  | cons r rest ih =>
    intro i
    cases hm : matchesQuery r q with
    | error e =>
      refine Or.inl ⟨e, ?_⟩
      unfold collectGo
      rw [hm]
      exact error_bind _ _
    | ok b =>
      have hb : b = false := by
        cases b
        · rfl
        · exact absurd hm (matchesQuery_unknown_not_true r q h)
      subst hb
      rcases ih (i + 1) with ⟨e, he⟩ | hok
      · refine Or.inl ⟨e, ?_⟩
        unfold collectGo
        rw [hm]
        simp only [ok_bind]
        rw [he]
        exact error_bind _ _
      · refine Or.inr ?_
        unfold collectGo
        rw [hm]
        simp only [ok_bind]
        rw [hok]
        simp only [ok_bind]
        rw [if_neg (by simp)]

theorem scanData_unknown (q : Query) (h : hasUnknownOp q = true) :
    ∀ data : List Rec,
      (∃ e, scanData data q = Except.error e) ∨ scanData data q = Except.ok [] := by
  intro data
  induction data with
  | nil => exact Or.inr rfl
  | cons r rest ih =>
    cases hm : matchesQuery r q with
    | error e =>
      refine Or.inl ⟨e, ?_⟩
      unfold scanData
      rw [hm]
      exact error_bind _ _
    | ok b =>
      have hb : b = false := by
        cases b
        · rfl
        · exact absurd hm (matchesQuery_unknown_not_true r q h)
      subst hb
      rcases ih with ⟨e, he⟩ | hok
      · refine Or.inl ⟨e, ?_⟩
        unfold scanData
        rw [hm]
        simp only [ok_bind]
        rw [he]
        exact error_bind _ _
      · refine Or.inr ?_
        unfold scanData
        rw [hm]
        simp only [ok_bind]
        rw [hok]
        simp only [ok_bind]
        rw [if_neg (by simp)]

theorem removeIdxs_nil_ps : ∀ (data : List Rec) (i : Nat), removeIdxs data [] i = data
  | [], _ => rfl
  | r :: rest, i => by
    unfold removeIdxs
    rw [if_neg (by simp)]
    rw [removeIdxs_nil_ps rest (i + 1)]

/-- C2 amended: a query containing an unknown operator makes `update` and
`delete` either raise (when some record's evaluation reaches the operator)
or return 0 with the store untouched — record count and every record's
fields unchanged and no persistence cycle scheduled (`delete` still clears
the — always empty in reachable states — index map); the full scan backing
`find` likewise raises or selects nothing. The error is not raised
unconditionally: an empty store or records failing an earlier constraint
short-circuit past the operator (see the counterexample). -/
theorem unknown_op_state_untouched (db : DB) (q : Query) (changes : Rec)
    (h : hasUnknownOp q = true) :
    ((∃ e, update db q changes = Except.error e) ∨
      update db q changes = Except.ok (0, db)) ∧
    ((∃ e, deleteOp db q = Except.error e) ∨
      deleteOp db q = Except.ok (0, { db with indexes := [] })) ∧
    ((∃ e, scanData db.data q = Except.error e) ∨
      scanData db.data q = Except.ok []) := by
  refine ⟨?_, ?_, scanData_unknown q h db.data⟩
  · rcases updateGo_unknown q changes h db.data 0 with ⟨e, he⟩ | hok
    · refine Or.inl ⟨e, ?_⟩
      unfold update
      rw [he]
      exact error_bind _ _
    · refine Or.inr ?_
      unfold update
      rw [hok]
      simp only [ok_bind]
      rfl
  · rcases collectGo_unknown q h db.data 0 with ⟨e, he⟩ | hok
    · refine Or.inl ⟨e, ?_⟩
      unfold deleteOp
      rw [he]
      exact error_bind _ _
    · refine Or.inr ?_
      unfold deleteOp
      rw [hok]
      simp only [ok_bind]
      rw [removeIdxs_nil_ps]
      simp

/-- Witness for the C2 amended theorem: on a store whose record does reach
the unknown operator, the calls raise. -/
theorem unknown_op_state_untouched_witness :
    ((∃ e, update (DB.mk [[("a", Value.num 1)]] [] false true acceptAll)
        [("a", Value.obj 0 [("$bogus", Value.num 1)])] [("z", Value.num 9)] =
          Except.error e) ∨
      update (DB.mk [[("a", Value.num 1)]] [] false true acceptAll)
        [("a", Value.obj 0 [("$bogus", Value.num 1)])] [("z", Value.num 9)] =
          Except.ok (0, DB.mk [[("a", Value.num 1)]] [] false true acceptAll)) ∧
    ((∃ e, deleteOp (DB.mk [[("a", Value.num 1)]] [] false true acceptAll)
        [("a", Value.obj 0 [("$bogus", Value.num 1)])] = Except.error e) ∨
      deleteOp (DB.mk [[("a", Value.num 1)]] [] false true acceptAll)
        [("a", Value.obj 0 [("$bogus", Value.num 1)])] =
          Except.ok (0, { DB.mk [[("a", Value.num 1)]] [] false true acceptAll with
            indexes := [] })) ∧
    ((∃ e, scanData (DB.mk [[("a", Value.num 1)]] [] false true acceptAll).data
        [("a", Value.obj 0 [("$bogus", Value.num 1)])] = Except.error e) ∨
      scanData (DB.mk [[("a", Value.num 1)]] [] false true acceptAll).data
        [("a", Value.obj 0 [("$bogus", Value.num 1)])] = Except.ok []) :=
  unknown_op_state_untouched (DB.mk [[("a", Value.num 1)]] [] false true acceptAll)
    [("a", Value.obj 0 [("$bogus", Value.num 1)])] [("z", Value.num 9)] rfl

/-! ## Claim C8 -/

theorem removeIdxs_congr :
    ∀ (data : List Rec) (ps ps' : List Nat) (i : Nat),
      (∀ j, i ≤ j → ps.contains j = ps'.contains j) →
      removeIdxs data ps i = removeIdxs data ps' i := by
  intro data
  induction data with
  | nil => intro ps ps' i h; rfl
  | cons r rest ih =>
    intro ps ps' i h
    unfold removeIdxs
    rw [h i le_rfl]
    rw [ih ps ps' (i + 1) fun j hj => h j (by omega)]

theorem contains_eq_false_of_gt (ps : List Nat) (i : Nat)
    (h : ∀ j ∈ ps, i < j) : ps.contains i = false := by
  cases hc : ps.contains i with
  | false => rfl
  | true =>
    obtain ⟨j, hj, hbeq⟩ := List.contains_iff_exists_mem_beq.mp hc
    have : i = j := eq_of_beq hbeq
    subst this
    exact absurd (h i hj) (by omega)

theorem collectGo_spec (q : Query) :
    ∀ (data : List Rec) (i : Nat),
      (∀ r ∈ data, ∃ b, matchesQuery r q = Except.ok b) →
      ∃ ps, collectGo q data i = Except.ok ps ∧
        ps.length = (data.filter fun r => matchesB r q).length ∧
        (∀ j ∈ ps, i ≤ j) ∧
        removeIdxs data ps i = data.filter fun r => !matchesB r q := by
  intro data
  induction data with
  | nil => intro i h; exact ⟨[], rfl, rfl, by simp, rfl⟩
  | cons r rest ih =>
    intro i h
    obtain ⟨b, hb⟩ := h r (List.mem_cons_self r rest)
    obtain ⟨ps', hc', hlen', hbnd', hrm'⟩ :=
      ih (i + 1) fun r' hr' => h r' (List.mem_cons_of_mem r hr')
    have hmB : matchesB r q = b := by simp [matchesB, hb]
    cases b with
    | true =>
      refine ⟨i :: ps', ?_, ?_, ?_, ?_⟩
      · unfold collectGo
        rw [hb]
        simp only [ok_bind]
        rw [hc']
        simp only [ok_bind]
        rfl
      · simp [List.filter_cons, hmB, hlen']
      · intro j hj
        rcases List.mem_cons.mp hj with rfl | hj'
        · exact le_rfl
        · exact le_trans (Nat.le_succ i) (hbnd' j hj')
      · unfold removeIdxs
        rw [if_pos (by simp)]
        rw [removeIdxs_congr rest (i :: ps') ps' (i + 1) fun j hj => by
          rw [List.contains_cons]
          have : (j == i) = false := by
            apply beq_eq_false_iff_ne.mpr
            omega
          rw [this]
          simp]
        rw [hrm']
        simp [List.filter_cons, hmB]
    | false =>
      refine ⟨ps', ?_, ?_, ?_, ?_⟩
      · unfold collectGo
        rw [hb]
        simp only [ok_bind]
        rw [hc']
        simp only [ok_bind]
        rw [if_neg (by simp)]
      · simp [List.filter_cons, hmB, hlen']
      · intro j hj
        exact le_trans (Nat.le_succ i) (hbnd' j hj)
      · unfold removeIdxs
        have hfalse : ps'.contains i = false :=
          contains_eq_false_of_gt ps' i fun j hj =>
            lt_of_lt_of_le (Nat.lt_succ_self i) (hbnd' j hj)
        rw [if_neg (by rw [hfalse]; exact Bool.false_ne_true)]
        rw [hrm']
        simp [List.filter_cons, hmB]

theorem length_filter_partition (p : Rec → Bool) :
    ∀ l : List Rec, (l.filter fun r => !p r).length + (l.filter p).length = l.length := by
  intro l
  induction l with
  | nil => rfl
  | cons r rest ih =>
    cases hp : p r <;> simp [List.filter_cons, hp] <;> omega

theorem find_empty_indexes (db : DB) (q : Query) (h : db.indexes = []) :
    find db (some q) = scanData db.data q := by
  unfold find
  cases hf : List.filter (fun e => !isObjectTyped e.2) q with
  | nil => simp [hf]
  | cons e rest =>
    cases rest with
    | nil =>
      obtain ⟨key, value⟩ := e
      simp [hf, h, mapHasStr, mapGetStr, List.find?]
    | cons e2 rest2 => simp [hf]

theorem scanData_all_false (q : Query) :
    ∀ data : List Rec, (∀ r ∈ data, matchesQuery r q = Except.ok false) →
      scanData data q = Except.ok [] := by
  intro data
  induction data with
  | nil => intro h; rfl
  | cons r rest ih =>
    intro h
    unfold scanData
    rw [h r (List.mem_cons_self r rest)]
    simp only [ok_bind]
    rw [ih fun r' hr' => h r' (List.mem_cons_of_mem r hr')]
    simp only [ok_bind]
    rw [if_neg (by simp)]

/-- C8 counterexample: a query containing only recognized operators can
still abort `delete` without returning any count — `$in` is recognized, yet
its evaluation on `{a: {$in: 3}}` against the stored record `{id:"x", a:3}`
calls `(3).includes`, a `TypeError`, so `delete` throws instead of returning
the number of matching records. -/
theorem delete_recognized_op_can_throw :
    recognizedOp "$in" = true ∧
    deleteOp (DB.mk [[("id", Value.str "x"), ("a", Value.num 3)]] [] false true acceptAll)
        [("a", Value.obj 0 [("$in", Value.num 3)])] =
      Except.error "TypeError: value.includes is not a function" :=
  ⟨rfl, rfl⟩

/-- C8 amended: for a query whose evaluation succeeds on every stored record
(all operators recognized and, for `$in`/`$nin`, operands on which
`includes` exists — otherwise the scan throws and no count is returned, see
the counterexample), `delete(q)` returns exactly the number of matching
records, the store shrinks by exactly that count, the surviving records are
the non-matching ones in their previous relative order, and a subsequent
`find(q)` returns the empty sequence. -/
theorem delete_exhaustive_exact (db : DB) (q : Query)
    (h : ∀ r ∈ db.data, ∃ b, matchesQuery r q = Except.ok b) :
    ∃ db', deleteOp db q =
        Except.ok ((db.data.filter fun r => matchesB r q).length, db') ∧
      db'.data = db.data.filter (fun r => !matchesB r q) ∧
      db'.data.length + (db.data.filter fun r => matchesB r q).length =
        db.data.length ∧
      find db' (some q) = Except.ok [] := by
  obtain ⟨ps, hc, hlen, hbnd, hrm⟩ := collectGo_spec q db.data 0 h
  have hsurv : ∀ r ∈ db.data.filter (fun r => !matchesB r q),
      matchesQuery r q = Except.ok false := by
    intro r hr
    have hmem := List.mem_of_mem_filter hr
    have hpred := List.of_mem_filter hr
    obtain ⟨b, hb⟩ := h r hmem
    have hmB : matchesB r q = b := by simp [matchesB, hb]
    cases b with
    | false => exact hb
    | true => rw [hmB] at hpred; simp at hpred
  unfold deleteOp
  rw [hc]
  simp only [ok_bind]
  by_cases h0 : 0 < ps.length
  · refine ⟨queueSave { db with data := removeIdxs db.data ps 0, indexes := [] },
      ?_, ?_, ?_, ?_⟩
    · rw [if_pos h0, hlen]
    · rw [queueSave_data]
      exact hrm
    · rw [queueSave_data, hrm]
      exact length_filter_partition _ db.data
    · rw [find_empty_indexes _ q (by rw [queueSave_indexes])]
      rw [queueSave_data, hrm]
      exact scanData_all_false q _ hsurv
  · refine ⟨{ db with data := removeIdxs db.data ps 0, indexes := [] },
      ?_, ?_, ?_, ?_⟩
    · rw [if_neg h0, hlen]
    · exact hrm
    · rw [hrm]
      exact length_filter_partition _ db.data
    · rw [find_empty_indexes _ q rfl]
      rw [hrm]
      exact scanData_all_false q _ hsurv

/-- Witness for C8 at a concrete store and query: deleting `{n:{$lt:2}}`
removes exactly the record with `n = 1`. -/
theorem delete_exhaustive_exact_witness :
    ∃ db', deleteOp dbC8w qC8 =
        Except.ok ((dbC8w.data.filter fun r => matchesB r qC8).length, db') ∧
      db'.data = dbC8w.data.filter (fun r => !matchesB r qC8) ∧
      db'.data.length + (dbC8w.data.filter fun r => matchesB r qC8).length =
        dbC8w.data.length ∧
      find db' (some qC8) = Except.ok [] :=
  delete_exhaustive_exact dbC8w qC8 (by
    intro r hr
    rcases List.mem_cons.mp hr with rfl | hr2
    · exact ⟨true, rfl⟩
    · rcases List.mem_cons.mp hr2 with rfl | hr3
      · exact ⟨false, rfl⟩
      · exact absurd hr3 (List.not_mem_nil r))

/-! ## Claim C9 amended -/

theorem jsEq_eq_iff_of_simple (V : Value) (h1 : isObjectTyped V = false)
    (h2 : V ≠ Value.undef) (x : Value) : jsEq x V = true ↔ x = V := by
  cases V with
  | null => simp [isObjectTyped] at h1
  | undef => exact absurd rfl h2
  | arr r es => simp [isObjectTyped] at h1
  | obj r fs => simp [isObjectTyped] at h1
  | bool b => cases x <;> simp [jsEq]
  | num n => cases x <;> simp [jsEq]
  | str s => cases x <;> simp [jsEq]

theorem scanData_literal (F : String) (V : Value) (hV : isObjectTyped V = false) :
    ∀ data : List Rec,
      scanData data [(F, V)] =
        Except.ok (data.filter fun r => jsEq (getField r F) V) := by
  intro data
  induction data with
  | nil => rfl
  | cons r rest ih =>
    unfold scanData
    rw [matchesQuery_single r F V, evalConstraint_literal r F V hV]
    simp only [ok_bind]
    rw [ih]
    simp only [ok_bind]
    cases hjs : jsEq (getField r F) V <;> simp [List.filter_cons, hjs]

theorem mapGetV_some_mem (im : ValueMap) (k : Value) (s : List Nat)
    (h : mapGetV im k = some s) : ∃ w, (w, s) ∈ im ∧ jsEq w k = true := by
  unfold mapGetV at h
  cases hf : List.find? (fun e => jsEq e.1 k) im with
  | none => rw [hf] at h; simp at h
  | some e =>
    obtain ⟨w, v⟩ := e
    rw [hf] at h
    simp only [Option.map_some'] at h
    have hv : v = s := Option.some.inj h
    subst hv
    refine ⟨w, List.mem_of_find?_eq_some hf, ?_⟩
    simpa using List.find?_some hf

/-- C9 amended: for a state whose indexes satisfy the stated invariant AND
are sound (every bucket position belongs to an in-range record actually
holding the bucket's value — the converse the stated invariant omits, see
the counterexample), `find({F: V})` for a simple defined value `V` returns
exactly the records (identified by `id`) that a full scan of `F == V`
selects, whichever path is taken. -/
theorem index_scan_equivalence
    (db : DB) (F : String) (V : Value)
    (hinv : indexInvariant db) (hsound : soundIndexes db)
    (hV : isObjectTyped V = false) (hVu : V ≠ Value.undef) :
    ∃ res, find db (some [(F, V)]) = Except.ok res ∧
      ∀ x, (∃ r ∈ res, getField r "id" = x) ↔
        ∃ r ∈ db.data, jsEq (getField r F) V = true ∧ getField r "id" = x := by
  unfold find
  have hfil : List.filter (fun e => !isObjectTyped e.2) [(F, V)] = [(F, V)] := by
    simp [List.filter, hV]
  simp only [hfil]
  by_cases hhas : mapHasStr db.indexes F = true
  · rw [if_pos hhas]
    obtain ⟨im, hgs⟩ := Option.isSome_iff_exists.mp hhas
    rw [hgs]
    simp only [Option.some_bind]
    cases hb : mapGetV im V with
    | some ps =>
      refine ⟨_, rfl, ?_⟩
      intro x
      constructor
      · rintro ⟨r, hrres, hid⟩
        rw [List.mem_filterMap] at hrres
        obtain ⟨p, hpps, hget⟩ := hrres
        obtain ⟨w, hwmem, hwjs⟩ := mapGetV_some_mem im V ps hb
        have hwV : w = V := (jsEq_eq_iff_of_simple V hV hVu w).mp hwjs
        subst hwV
        obtain ⟨hp, hjs⟩ := hsound F im hgs w ps hwmem p hpps
        have hr : db.data.get ⟨p, hp⟩ = r := by
          rw [List.get?_eq_get hp] at hget
          exact Option.some.inj hget
        exact ⟨r, by rw [← hr]; exact List.get_mem _ _ _,
          by rw [← hr]; exact hjs, hid⟩
      · rintro ⟨r, hrdata, hjs, hid⟩
        have hFV : getField r F = V := (jsEq_eq_iff_of_simple V hV hVu _).mp hjs
        obtain ⟨n, hget⟩ := List.mem_iff_get.mp hrdata
        obtain ⟨p, hplt⟩ := n
        have hne : getField (db.data.get ⟨p, hplt⟩) F ≠ Value.undef := by
          rw [hget, hFV]; exact hVu
        obtain ⟨⟨ps', hps', hpmem⟩, _⟩ := hinv F im hgs p hplt hne
        rw [hget, hFV] at hps'
        have hpe : ps' = ps := Option.some.inj (hps'.symm.trans hb)
        subst hpe
        refine ⟨r, ?_, hid⟩
        rw [List.mem_filterMap]
        exact ⟨p, hpmem, by rw [List.get?_eq_get hplt, hget]⟩
    | none =>
      rw [scanData_literal F V hV db.data]
      refine ⟨_, rfl, ?_⟩
      intro x
      simp only [List.mem_filter]
      constructor
      · rintro ⟨r, ⟨hrd, hp⟩, hid⟩
        exact ⟨r, hrd, hp, hid⟩
      · rintro ⟨r, hrd, hp, hid⟩
        exact ⟨r, ⟨hrd, hp⟩, hid⟩
  · rw [if_neg hhas]
    rw [scanData_literal F V hV db.data]
    refine ⟨_, rfl, ?_⟩
    intro x
    simp only [List.mem_filter]
    constructor
    · rintro ⟨r, ⟨hrd, hp⟩, hid⟩
      exact ⟨r, hrd, hp, hid⟩
    · rintro ⟨r, hrd, hp, hid⟩
      exact ⟨r, ⟨hrd, hp⟩, hid⟩

/-- Witness for the C9 amended theorem at a concrete correctly-indexed
store. -/
theorem index_scan_equivalence_witness :
    ∃ res, find dbC9w (some [("a", Value.num 1)]) = Except.ok res ∧
      ∀ x, (∃ r ∈ res, getField r "id" = x) ↔
        ∃ r ∈ dbC9w.data,
          jsEq (getField r "a") (Value.num 1) = true ∧ getField r "id" = x := by
  refine index_scan_equivalence dbC9w "a" (Value.num 1) ?_ ?_ rfl
    (fun hc => Value.noConfusion hc)
  · intro key im hkey p hp hdef
    have hp0 : p = 0 := by
      have : dbC9w.data.length = 1 := rfl
      omega
    subst hp0
    cases hbe : (("a" : String) == key) with
    | false =>
      unfold dbC9w mapGetStr at hkey
      simp [List.find?, hbe] at hkey
    | true =>
      have hkeya : key = "a" := (eq_of_beq hbe).symm
      subst hkeya
      have him : im = [(Value.num 1, [0])] := by
        unfold dbC9w mapGetStr at hkey
        simp [List.find?] at hkey
        exact hkey.symm
      subst him
      refine ⟨⟨[0], rfl, by simp⟩, ?_⟩
      intro w ps hmem hjs
      have hw : w = Value.num 1 ∧ ps = [0] := by
        rcases List.mem_cons.mp hmem with heq | hnil
        · exact ⟨congrArg Prod.fst heq, congrArg Prod.snd heq⟩
        · exact absurd hnil (List.not_mem_nil _)
      rw [hw.1] at hjs
      have : jsEq (Value.num 1) (getField (dbC9w.data.get ⟨0, hp⟩) "a") = true := rfl
      rw [this] at hjs
      cases hjs
  · intro key im hkey w ps hmem p hpmem
    cases hbe : (("a" : String) == key) with
    | false =>
      unfold dbC9w mapGetStr at hkey
      simp [List.find?, hbe] at hkey
    | true =>
      have hkeya : key = "a" := (eq_of_beq hbe).symm
      subst hkeya
      have him : im = [(Value.num 1, [0])] := by
        unfold dbC9w mapGetStr at hkey
        simp [List.find?] at hkey
        exact hkey.symm
      subst him
      have hw : w = Value.num 1 ∧ ps = [0] := by
        rcases List.mem_cons.mp hmem with heq | hnil
        · exact ⟨congrArg Prod.fst heq, congrArg Prod.snd heq⟩
        · exact absurd hnil (List.not_mem_nil _)
      have hp0 : p = 0 := by
        rw [hw.2] at hpmem
        simpa using hpmem
      subst hp0
      rw [hw.1]
      exact ⟨Nat.zero_lt_one, rfl⟩

end BunDB
